import Mathlib

set_option autoImplicit false

/-!
Shallow embedding of the core of `trust` (src/src/main.rs): the text buffer
with its undo/redo snapshot stacks, range parsing, atomic save and file
loading, the input history, tab completion, and the raw-mode line reader
modelled as an interpreter over a script of read results.
-/

namespace Trust

/-- `const UNDO_MAX: usize = 200;` — capacity of each snapshot stack. -/
def UNDO_MAX : Nat := 200

/-- `hist_max: 800` set in `LineReader::new` — capacity of the history. -/
def HIST_MAX : Nat := 800

/-- `str::starts_with`, as a structurally recursive prefix test over the
character lists (UTF-8 byte prefixes and character prefixes agree). -/
def strStarts (s pre : String) : Bool := List.isPrefixOf pre.toList s.toList

/-- `str::trim`: strip leading and trailing whitespace. -/
def trimS (s : String) : String :=
  String.mk (((s.toList.dropWhile Char.isWhitespace).reverse.dropWhile
    Char.isWhitespace).reverse)

/-- `struct Buffer`: optional source path, line sequence, dirty flag and the
three per-buffer flags (`number`, `backup`, `highlight`). -/
structure Buffer where
  path : Option String
  lines : List String
  dirty : Bool
  number : Bool
  backup : Bool
  highlight : Bool
deriving Repr, DecidableEq

/-- `Buffer::new()`. -/
def Buffer.new : Buffer :=
  { path := none, lines := [], dirty := false,
    number := true, backup := true, highlight := false }

/-- `Stack::push` (a `Snap` stores `buf.lines.clone()`).  The Rust stack is a
`Vec` pushed/popped at its end, with `remove(0)` evicting the oldest entry
when `len == UNDO_MAX`; we mirror it with the list head as the top of the
stack, so the eviction of the oldest entry is `dropLast`. -/
def pushSnap (l : List String) (st : List (List String)) : List (List String) :=
  l :: (if st.length = UNDO_MAX then st.dropLast else st)

/-- The editor state relevant to undo/redo: the active buffer plus the two
snapshot stacks (`Editor { buf, undo, redo, .. }`). -/
structure Ed where
  buf : Buffer
  undo : List (List String)
  redo : List (List String)
deriving Repr, DecidableEq

/-- `Editor::push_undo`: push a snapshot of the current lines onto the undo
stack, then clear the redo stack. -/
def pushUndo (e : Ed) : Ed :=
  { e with undo := pushSnap e.buf.lines e.undo, redo := [] }

/-- The `append`/`a` command, with the interactively entered lines abstracted
as `added`: `push_undo`, push each entered line, mark dirty. -/
def appendCmd (added : List String) (e : Ed) : Ed :=
  let e1 := pushUndo e
  { e1 with buf := { e1.buf with lines := e1.buf.lines ++ added, dirty := true } }

/-- The `insert`/`i n` command: `push_undo`, insert the entered lines before
line `n` (index `n.saturating_sub(1)` clamped to the line count — Nat
subtraction is already saturating), mark dirty. -/
def insertCmd (n : Nat) (added : List String) (e : Ed) : Ed :=
  let e1 := pushUndo e
  let idx := min (n - 1) e1.buf.lines.length
  { e1 with buf := { e1.buf with
      lines := e1.buf.lines.take idx ++ added ++ e1.buf.lines.drop idx,
      dirty := true } }

/-- The `delete`/`d` command after a successful `parse_range`: `push_undo`,
then `lines.drain(lo-1..hi)`. -/
def deleteCmd (lo hi : Nat) (e : Ed) : Ed :=
  let e1 := pushUndo e
  { e1 with buf := { e1.buf with
      lines := e1.buf.lines.take (lo - 1) ++ e1.buf.lines.drop hi,
      dirty := true } }

/-- The buffer update of `rustfmt_current` on a successful rustfmt run, with
the reformatted lines abstracted as `newLines`: `push_undo`, then either a
`splice(lo-1..hi, ..)` for a range or a wholesale replacement, mark dirty. -/
def rustfmtCmd (newLines : List String) (range : Option (Nat × Nat)) (e : Ed) : Ed :=
  let e1 := pushUndo e
  match range with
  | some (lo, hi) =>
    let lo1 := max lo 1
    let hi1 := min hi e1.buf.lines.length
    { e1 with buf := { e1.buf with
        lines := e1.buf.lines.take (lo1 - 1) ++ newLines ++ e1.buf.lines.drop hi1,
        dirty := true } }
  | none =>
    { e1 with buf := { e1.buf with lines := newLines, dirty := true } }

/-- `"struct ".trim_start_matches` removes the prefix repeatedly; fuelled by
the string length. -/
def stripStructAux : Nat → String → String
  | 0, s => s
  | n + 1, s =>
    if strStarts s "struct " then stripStructAux n (String.mk (s.toList.drop 7))
    else s

/-- The snippet lines appended by `insert_snip` for a recognized kind. -/
def snipLines (kind : String) : Option (List String) :=
  if kind = "main" then
    some ["fn main() \x7b", "    println!(\"hello from trust 🦀\");", "\x7d"]
  else if kind = "mod" then
    some ["pub mod my_mod \x7b", "    pub fn hi() \x7b",
          "        println!(\"hi from module\");", "    \x7d", "\x7d"]
  else if strStarts kind "struct " then
    let name := trimS (stripStructAux kind.toList.length kind)
    some ["pub struct " ++ name ++ " \x7b", "    pub id: u32,", "\x7d",
          "impl " ++ name ++ " \x7b", "    pub fn new(id: u32) -> Self \x7b",
          "        Self \x7b id \x7d", "    \x7d", "\x7d"]
  else none

/-- `insert_snip`: note that `push_undo` runs before the snippet kind is
inspected, so even an unrecognized kind pushes a snapshot and clears redo. -/
def snipCmd (kind : String) (e : Ed) : Ed :=
  let e1 := pushUndo e
  match snipLines kind with
  | some ls =>
    { e1 with buf := { e1.buf with lines := e1.buf.lines ++ ls, dirty := true } }
  | none => e1

/-- The `undo`/`u` command: pop the undo stack; if a snapshot is there, push
the current lines onto the redo stack, install the snapshot, mark dirty.
An empty undo stack only prints "nothing to undo". -/
def undoCmd (e : Ed) : Ed :=
  match e.undo with
  | [] => e
  | s :: rest =>
    { e with
        undo := rest
        redo := pushSnap e.buf.lines e.redo
        buf := { e.buf with lines := s, dirty := true } }

/-- The `redo` command, mirror of `undoCmd`. -/
def redoCmd (e : Ed) : Ed :=
  match e.redo with
  | [] => e
  | s :: rest =>
    { e with
        redo := rest
        undo := pushSnap e.buf.lines e.undo
        buf := { e.buf with lines := s, dirty := true } }

/-- Iterate a state transformer `k` times (first application innermost). -/
def iterEd (f : Ed → Ed) : Nat → Ed → Ed
  | 0, e => e
  | k + 1, e => iterEd f k (f e)

/-- `k` consecutive `undo` commands. -/
def undoN (k : Nat) (e : Ed) : Ed := iterEd undoCmd k e

/-- `k` consecutive `redo` commands. -/
def redoN (k : Nat) (e : Ed) : Ed := iterEd redoCmd k e

/-- The structural buffer mutations of the dispatcher other than undo/redo:
append, insert, delete, rustfmt replacement and snippet insertion. -/
inductive Mut where
  | append (added : List String)
  | insert (n : Nat) (added : List String)
  | del (lo hi : Nat)
  | rustfmt (newLines : List String) (range : Option (Nat × Nat))
  | snip (kind : String)

/-- Apply one mutation command to the editor state. -/
def applyMut (m : Mut) (e : Ed) : Ed :=
  match m with
  | .append added => appendCmd added e
  | .insert n added => insertCmd n added e
  | .del lo hi => deleteCmd lo hi e
  | .rustfmt nl r => rustfmtCmd nl r e
  | .snip kind => snipCmd kind e

/-- Apply a sequence of mutation commands in order. -/
def applyMuts (ms : List Mut) (e : Ed) : Ed := ms.foldl (fun e m => applyMut m e) e

/-- An editor state as produced by `Editor::new` (possibly after `open`,
which replaces the buffer but leaves both stacks untouched): empty stacks. -/
def mkEd (b : Buffer) : Ed := { buf := b, undo := [], redo := [] }

/-- Index of the first occurrence of a character (`str::find`). -/
def firstIdxOf (c : Char) : List Char → Option Nat
  | [] => none
  | x :: xs => if x = c then some 0 else (firstIdxOf c xs).map (· + 1)

/-- `str::parse::<usize>()`: an optional leading plus sign, then at least one
ASCII digit; the value must fit in a 64-bit `usize` (overflow is an error,
not a wrap). -/
def parseUsize (s : String) : Option Nat :=
  let cs := s.toList
  let ds := match cs with
    | c :: rest => if c = '+' then rest else cs
    | [] => []
  if ds = [] then none
  else if ds.all Char.isDigit then
    let v := ds.foldl (fun a c => a * 10 + (c.toNat - 48)) 0
    if v < 2 ^ 64 then some v else none
  else none

/-- One side of the `A-B` form: an empty token defaults (`1` on the left,
`nlines` on the right), otherwise it must parse. -/
def rangeToken (t : List Char) (dflt : Nat) : Option Nat :=
  if t = [] then some dflt else parseUsize (String.mk t)

/-- `parse_range(s, nlines)` from main.rs. -/
def parse_range (s : String) (nlines : Nat) : Option (Nat × Nat) :=
  if trimS s = "" then some (1, nlines)
  else
    match firstIdxOf '-' (trimS s).toList with
    | some idx =>
      match rangeToken ((trimS s).toList.take idx) 1,
            rangeToken ((trimS s).toList.drop (idx + 1)) nlines with
      | some lo, some hi =>
        if lo = 0 ∨ hi = 0 ∨ hi < lo then none else some (lo, min hi nlines)
      | _, _ => none
    | none =>
      match parseUsize (trimS s) with
      | some n => if n = 0 then none else some (n, min n nlines)
      | none => none

-- ===== Persistence: atomic_save / Editor::save / load ==================

/-- The byte content `atomic_save` writes to the temporary file before the
rename: every buffer line followed by exactly one `\n`, in order. -/
def savedContent (lines : List String) : String :=
  String.join (lines.map (fun l => l ++ "\n"))

/-- A flat model of the file system: a map from paths to file contents. -/
def FS : Type := String → Option String

/-- Point update of the file-system map (the effect of writing a file). -/
def fsUpdate (fs : FS) (p : String) (c : String) : FS :=
  fun q => if q = p then some c else fs q

/-- The environment of one save attempt: whether the best-effort backup copy
succeeds, whether the open/write/flush/sync of the temporary file succeeds,
whether the final rename succeeds, and how the sibling backup path is derived
(`set_extension("~")`, left abstract — no claim depends on the exact name). -/
structure SaveEnv where
  backupOk : Bool
  writeOk : Bool
  renameOk : Bool
  backupNameOf : String → String

/-- `atomic_save(path, buf, backup)`: optional best-effort backup copy (its
failure is ignored), write all lines each followed by one newline to a
temporary file, then atomically rename it onto `path`.  A write or rename
failure leaves the target untouched.  Returns the new file system and
whether the save succeeded. -/
def atomicSave (env : SaveEnv) (fs : FS) (path : String) (buf : Buffer)
    (backup : Bool) : FS × Bool :=
  let fs1 := match fs path with
    | some old => if backup ∧ env.backupOk then fsUpdate fs (env.backupNameOf path) old else fs
    | none => fs
  if env.writeOk then
    if env.renameOk then (fsUpdate fs1 path (savedContent buf.lines), true)
    else (fs1, false)
  else (fs1, false)

/-- `Editor::save(path_opt)`: resolve the target (explicit argument, else the
buffer's path, else report "no filename" and do nothing); on a successful
`atomic_save` adopt the target as the buffer's path and clear the dirty
flag; on failure only report, leaving the buffer untouched. -/
def saveCmd (env : SaveEnv) (fs : FS) (pathOpt : Option String) (buf : Buffer) :
    FS × Buffer :=
  let target? := match pathOpt with
    | some p => some p
    | none => buf.path
  match target? with
  | none => (fs, buf)
  | some target =>
    let r := atomicSave env fs target buf buf.backup
    if r.2 then (r.1, { buf with path := some target, dirty := false })
    else (r.1, buf)

/-- `load_file(path, buf)`: clears the lines, then opens and reads the file;
`content` is the read outcome (`none`: the open failed).  On success the
buffer keeps its flags, gets the file's lines and a clear dirty flag. -/
def load_file (content : Option (List String)) (buf : Buffer) : Buffer × Bool :=
  match content with
  | some ls => ({ buf with lines := ls, dirty := false }, true)
  | none => ({ buf with lines := [] }, false)

/-- `Editor::load(path)`: on success adopt the path; on an open/read error
report `"(new) path (err)"` and replace the buffer with `Buffer::new()`
carrying the requested path. -/
def loadCmd (content : Option (List String)) (buf : Buffer) (path : String) :
    Buffer :=
  let r := load_file content buf
  if r.2 then { r.1 with path := some path }
  else { Buffer.new with path := some path }

-- ===== History =========================================================

/-- `LineReader::remember`: skip empty entries and entries equal to the last
stored one; at capacity (`len >= hist_max`) evict the oldest entry before
pushing. -/
def remember (hist : List String) (s : String) : List String :=
  if s = "" then hist
  else if hist.getLast? = some s then hist
  else (if HIST_MAX ≤ hist.length then hist.drop 1 else hist) ++ [s]

-- ===== Completion ======================================================

/-- Index of the last occurrence of a character (`str::rfind`). -/
def lastIdxOf (c : Char) : List Char → Option Nat
  | [] => none
  | x :: xs =>
    match lastIdxOf c xs with
    | some i => some (i + 1)
    | none => if x = c then some 0 else none

/-- `LineReader::expand_home` with the home directory as a parameter:
`~` becomes the home path and `~/rest` becomes `home/rest` (the `PathBuf`
push of a relative path inserts one separator). -/
def expand_home (home : String) (token : String) : String :=
  if token = "~" then home
  else if strStarts token "~/" then home ++ "/" ++ String.mk (token.toList.drop 2)
  else token

/-- A directory entry as completion sees it: the file name and its metadata
(`none`: `e.metadata()` failed; `some d`: succeeded with `is_dir = d`). -/
def FsEntry : Type := String × Option Bool

/-- The `fs::read_dir` collaborator: the entries of each directory (a failed
`read_dir` is the empty list, matching the `if let Ok(rd)` fallthrough). -/
def Listing : Type := String → List FsEntry

/-- Split a token at its last `/` into directory and base name; a token
without `/` completes in `"."` (the `(dir, base)` match in both completion
functions).  The strings here are valid UTF-8, where splitting at the byte
index of `/` and splitting at its character index agree. -/
def splitTok (token : String) : String × String :=
  match lastIdxOf '/' token.toList with
  | some idx => (String.mk (token.toList.take idx), String.mk (token.toList.drop (idx + 1)))
  | none => (".", token)

/-- Lexicographic comparison of character lists by code point.  Rust sorts
`String`s by raw bytes; UTF-8 is order-preserving, so byte order and code
point order coincide. -/
def lexLe : List Char → List Char → Bool
  | [], _ => true
  | _ :: _, [] => false
  | x :: xs, y :: ys =>
    if x.toNat < y.toNat then true
    else if y.toNat < x.toNat then false
    else lexLe xs ys

/-- The string order used by `out.sort()`. -/
def strLe (a b : String) : Prop := lexLe a.toList b.toList = true

instance : DecidableRel strLe := fun a b => by
  unfold strLe; infer_instance

/-- `Vec::sort()` on strings: produce the `strLe`-sorted arrangement. -/
def sortStr (l : List String) : List String := l.insertionSort strLe

/-- The per-entry body of the `complete_dirs_only` loop: keep only entries
with readable metadata that are directories and match the base-name prefix;
a candidate gets a trailing `/` only in the `dir == "."` branch. -/
def dirOnlyCand (dir base : String) (e : FsEntry) : Option String :=
  match e.2 with
  | some true =>
    if strStarts e.1 base then
      some (if dir = "." then e.1 ++ "/" else dir ++ "/" ++ e.1)
    else none
  | _ => none

/-- The per-entry body of the `complete_fs` loop: keep every entry matching
the base-name prefix; directories get a trailing `/`, entries whose
metadata cannot be read are kept as plain paths. -/
def fsCand (dir base : String) (e : FsEntry) : Option String :=
  if strStarts e.1 base then
    let path := if dir = "." then e.1 else dir ++ "/" ++ e.1
    some (match e.2 with
      | some true => path ++ "/"
      | _ => path)
  else none

/-- `LineReader::complete_dirs_only`. -/
def complete_dirs_only (fs : Listing) (home : String) (token : String) :
    List String :=
  let db := splitTok (expand_home home token)
  sortStr ((fs db.1).filterMap (dirOnlyCand db.1 db.2))

/-- `LineReader::complete_fs`. -/
def complete_fs (fs : Listing) (home : String) (token : String) : List String :=
  let db := splitTok (expand_home home token)
  sortStr ((fs db.1).filterMap (fsCand db.1 db.2))

/-- `split_whitespace().collect()`. -/
def splitWordsAux : List Char → List Char → List String
  | [], cur => if cur = [] then [] else [String.mk cur.reverse]
  | c :: cs, cur =>
    if c.isWhitespace then
      if cur = [] then splitWordsAux cs []
      else String.mk cur.reverse :: splitWordsAux cs []
    else splitWordsAux cs (c :: cur)

/-- `LineReader::split_words`. -/
def split_words (s : String) : List String := splitWordsAux s.toList []

/-- `buf.ends_with(char::is_whitespace)` guarded by `!buf.is_empty()`. -/
def endsInWs (buf : String) : Bool :=
  match buf.toList.getLast? with
  | some c => c.isWhitespace
  | none => false

/-- `LineReader::complete`: empty buffer yields all commands; a single,
still-open token prefix-filters the command set; otherwise the last token is
completed against the file system, with `cd` restricted to directories. -/
def complete (commands : List String) (fs : Listing) (home : String)
    (buf : String) : List String :=
  let toks := split_words buf
  let fresh := !(buf == "") && endsInWs buf
  match toks with
  | [] => commands
  | t :: ts =>
    if ts = [] ∧ fresh = false then
      commands.filter (fun c => strStarts c t)
    else
      let last := if fresh then "" else (t :: ts).getLastD ""
      if t = "cd" then complete_dirs_only fs home last
      else complete_fs fs home last

-- ===== Raw-mode line reader ===========================================

/-- One result of a `read` call on stdin: a byte, a zero-length read (end of
stream), or an I/O error. -/
inductive REvent where
  | byte (b : Nat)
  | eof
  | rerr
deriving Repr, DecidableEq

/-- The collaborators `read_line` consults for completion. -/
structure RLCfg where
  commands : List String
  fs : Listing
  home : String

/-- The observable outcome of one `read_line` call: the returned
`io::Result<String>` (the error payload is irrelevant, so `Unit`), the
number of `disable_raw_mode` calls performed, and the history afterwards. -/
structure RLOut where
  res : Except Unit String
  restores : Nat
  hist : List String
deriving Repr

/-- The TAB branch of `read_line`: compute candidates; with exactly one,
replace the last space-delimited token (`buf.rfind(' ')`), or the whole
buffer when it has no token or no space, and move the cursor to the end;
otherwise (none, or several printed in a grid) leave buffer and cursor
alone. -/
def tabComplete (cfg : RLCfg) (buf : List Char) (cursor : Nat) :
    List Char × Nat :=
  let opts := complete cfg.commands cfg.fs cfg.home (String.mk buf)
  match opts with
  | [o] =>
    let toks := split_words (String.mk buf)
    let newBuf :=
      if toks = [] then o.toList
      else match lastIdxOf ' ' buf with
        | some idx => buf.take (idx + 1) ++ o.toList
        | none => o.toList
    (newBuf, newBuf.length)
  | _ => (buf, cursor)

/-- The per-byte loop of `read_line` in raw mode, driven by the script of
read results.  An exhausted script behaves like end of stream (a read
returning zero bytes).  The state is the edit buffer (one `char` per byte:
`b as char`), the cursor, the history browse index (an `isize` in Rust,
hence `Int`), and the history.  Each branch mirrors the `match b` arms; in
the ESC arm the two follow-up reads swallow errors (`.is_ok()`) and leave
the probe byte `0` on a zero-length read.  The main-loop read propagates an
error with `?` — before `disable_raw_mode` runs. -/
def rlLoop (cfg : RLCfg) : List REvent → List Char → Nat → Int →
    List String → RLOut
  | [], _, _, _, hist => ⟨.ok "", 1, hist⟩
  | .rerr :: _, _, _, _, hist => ⟨.error (), 0, hist⟩
  | .eof :: _, _, _, _, hist => ⟨.ok "", 1, hist⟩
  | .byte b :: evs, buf, cursor, histIdx, hist =>
    if b = 13 ∨ b = 10 then
      ⟨.ok (String.mk buf), 1, remember hist (String.mk buf)⟩
    else if b = 127 ∨ b = 8 then
      if 0 < cursor then
        rlLoop cfg evs (buf.take (cursor - 1) ++ buf.drop cursor) (cursor - 1)
          histIdx hist
      else rlLoop cfg evs buf cursor histIdx hist
    else if b = 9 then
      let r := tabComplete cfg buf cursor
      rlLoop cfg evs r.1 r.2 histIdx hist
    else if b = 27 then
      match evs with
      | [] => rlLoop cfg [] buf cursor histIdx hist
      | .rerr :: evs2 => rlLoop cfg evs2 buf cursor histIdx hist
      | .eof :: evs2 => rlLoop cfg evs2 buf cursor histIdx hist
      | .byte c :: evs2 =>
        if c = 91 then
          match evs2 with
          | [] => rlLoop cfg [] buf cursor histIdx hist
          | .rerr :: evs3 => rlLoop cfg evs3 buf cursor histIdx hist
          | .eof :: evs3 => rlLoop cfg evs3 buf cursor histIdx hist
          | .byte d :: evs3 =>
            if d = 65 then
              if 0 < histIdx then
                let i := histIdx - 1
                let nb := (hist.getD i.toNat "").toList
                rlLoop cfg evs3 nb nb.length i hist
              else rlLoop cfg evs3 buf cursor histIdx hist
            else if d = 66 then
              if histIdx < (hist.length : Int) - 1 then
                let i := histIdx + 1
                let nb := (hist.getD i.toNat "").toList
                rlLoop cfg evs3 nb nb.length i hist
              else rlLoop cfg evs3 [] 0 (hist.length : Int) hist
            else if d = 67 then
              if cursor < buf.length then
                rlLoop cfg evs3 buf (cursor + 1) histIdx hist
              else rlLoop cfg evs3 buf cursor histIdx hist
            else if d = 68 then
              if 0 < cursor then
                rlLoop cfg evs3 buf (cursor - 1) histIdx hist
              else rlLoop cfg evs3 buf cursor histIdx hist
            else rlLoop cfg evs3 buf cursor histIdx hist
        else rlLoop cfg evs2 buf cursor histIdx hist
    else
      rlLoop cfg evs (buf.take cursor ++ [Char.ofNat b] ++ buf.drop cursor)
        (cursor + 1) histIdx hist

/-- `LineReader::read_line` (unix): `enable_raw_mode(fd)?` — a raw-mode
failure propagates immediately — then the per-byte loop with an empty
buffer, cursor 0 and the browse index at `history.len()`. -/
def read_line (cfg : RLCfg) (enableRaw : Except Unit Unit)
    (events : List REvent) (hist : List String) : RLOut :=
  match enableRaw with
  | .error e => ⟨.error e, 0, hist⟩
  | .ok _ => rlLoop cfg events [] 0 (hist.length : Int) hist

-- ===== Test fixtures and auxiliary functions ===========================

/-- Split a character list at every `\n`; `n` separators yield `n + 1`
chunks, so a text in the saved-file format (every line terminated) ends in
an empty chunk. -/
def splitNlChars : List Char → List (List Char)
  | [] => [[]]
  | c :: cs =>
    let r := splitNlChars cs
    if c = '\n' then [] :: r
    else
      match r with
      | [] => [[c]]
      | h :: t => (c :: h) :: t

/-- A line-reader configuration with no commands and an empty file system. -/
def emptyCfg : RLCfg := ⟨[], fun _ => [], ""⟩

/-- A current directory holding `foo.txt`, `foobar/` and `bar.txt` (the
directory-entry fixture of the spec's completion examples). -/
def fsAbc : Listing := fun d =>
  if d = "." then [("foo.txt", some false), ("foobar", some true), ("bar.txt", some false)]
  else []

/-- A file system whose `src` directory holds a single directory `foobar`. -/
def fsSrc : Listing := fun d =>
  if d = "src" then [("foobar", some true)] else []

/-- The registered command names used in the completion examples. -/
def cmdsFixture : List String := ["open", "write", "quit", "cd"]

-- =======================================================================
-- Theorems
-- =======================================================================

-- ===== C2: parse_range =================================================

/-- C2 (counterexample): the claim says a bare integer `N` yields `(N, N)`
and that every returned pair satisfies `lo ≤ hi`; but
`parse_range("15", 10)` returns `(15, 10)` — the code clamps the upper
bound of the bare-integer form to the line count, producing `hi < lo`. -/
theorem parse_range_claim_counterexample :
    parse_range "15" 10 = some (15, 10) ∧
    parse_range "15" 10 ≠ some (15, 15) ∧ ¬ (15 : Nat) ≤ 10 := by
  refine ⟨by decide, by decide, by decide⟩

/-- C2 (amended): the six concrete examples hold; every accepted range has
`1 ≤ lo`, `hi ≤ lineCount`, and `lo ≤ hi` whenever `lo ≤ lineCount` (a bare
integer or left bound beyond the line count is clamped to `hi = lineCount <
lo` rather than rejected); a bare integer `N > 0` yields
`(N, min N lineCount)`. -/
theorem parse_range_spec :
    parse_range "" 10 = some (1, 10) ∧
    parse_range "5" 10 = some (5, 5) ∧
    parse_range "3-" 10 = some (3, 10) ∧
    parse_range "-4" 10 = some (1, 4) ∧
    parse_range "5-2" 10 = none ∧
    parse_range "0" 10 = none ∧
    (∀ (s : String) (n lo hi : Nat), parse_range s n = some (lo, hi) →
      1 ≤ lo ∧ hi ≤ n ∧ (lo ≤ n → lo ≤ hi)) ∧
    (∀ (s : String) (n N : Nat), firstIdxOf '-' (trimS s).toList = none →
      parseUsize (trimS s) = some N → N ≠ 0 →
      parse_range s n = some (N, min N n)) := by
  refine ⟨by decide, by decide, by decide, by decide, by decide, by decide, ?_, ?_⟩
  · intro s n lo hi h
    unfold parse_range at h
    repeat' split at h
    all_goals first
      | (simp only [Option.some.injEq, Prod.mk.injEq] at h
         try push_neg at *
         omega)
      | exact absurd h (by simp)
  · intro s n N hdash hparse hN
    have htne : ¬ trimS s = "" := by
      intro he
      rw [he] at hparse
      rw [show parseUsize "" = none from rfl] at hparse
      exact Option.noConfusion hparse
    unfold parse_range
    simp only [if_neg htne, hdash, hparse, if_neg hN]

/-- C2 (witness for `parse_range_spec`). -/
theorem parse_range_spec_witness :
    1 ≤ 5 ∧ (5 : Nat) ≤ 10 ∧ parse_range "7" 9 = some (7, min 7 9) := by
  refine ⟨?_, ?_, ?_⟩
  · exact (parse_range_spec.2.2.2.2.2.2.1 "5" 10 5 5 (by decide)).1
  · exact (parse_range_spec.2.2.2.2.2.2.1 "5" 10 5 5 (by decide)).2.1
  · exact parse_range_spec.2.2.2.2.2.2.2 "7" 9 7 (by decide) (by decide) (by decide)

-- ===== C4: load failure ===============================================

/-- C4 (counterexample): the claim says a failed open leaves the buffer's
line sequence unchanged; but `Editor::load` replaces the buffer with
`Buffer::new()` (carrying the requested path) on an open error, discarding
the previous lines. -/
theorem load_claim_counterexample :
    (loadCmd none { Buffer.new with lines := ["keep me"] } "missing.txt").lines = [] ∧
    (loadCmd none { Buffer.new with lines := ["keep me"] } "missing.txt").lines
      ≠ ["keep me"] := by
  refine ⟨rfl, by decide⟩

/-- C4 (amended): when the open fails, the failure is reported and the
buffer is replaced by a fresh default buffer whose path is the requested
path (open-as-new-file semantics), discarding the previous lines; on
success the buffer keeps its flags, takes the file's lines, clears the
dirty flag and adopts the path.  The process never terminates on this
path. -/
theorem load_spec : ∀ (buf : Buffer) (path : String) (ls : List String),
    loadCmd none buf path = { Buffer.new with path := some path } ∧
    loadCmd (some ls) buf path =
      { buf with lines := ls, dirty := false, path := some path } := by
  intro buf path ls
  exact ⟨rfl, rfl⟩

-- ===== C3: atomic save ================================================

/-- Auxiliary: the character content of a left fold of string appends. -/
theorem toList_foldl_append (ls : List String) :
    ∀ (a : String), (ls.foldl (fun r s => r ++ s) a).toList
      = a.toList ++ (ls.map String.toList).flatten := by
  induction ls with
  | nil => intro a; simp
  | cons l ls ih =>
    intro a
    simp only [List.foldl_cons, ih, List.map_cons, List.flatten_cons]
    simp [String.toList]

/-- Auxiliary: the saved content is the concatenation of the lines, each
followed by exactly one newline. -/
theorem savedContent_toList (ls : List String) :
    (savedContent ls).toList
      = (ls.map (fun l => l.toList ++ ['\n'])).flatten := by
  unfold savedContent String.join
  rw [toList_foldl_append]
  rw [show ("" : String).toList = [] from rfl, List.nil_append, List.map_map]
  exact congrArg List.flatten (List.map_congr_left (fun a _ => rfl))

/-- Auxiliary: splitting after one terminated line peels that line off. -/
theorem splitNlChars_append (l : List Char) (rest : List Char)
    (hl : ('\n' : Char) ∉ l) :
    splitNlChars (l ++ '\n' :: rest) = l :: splitNlChars rest := by
  induction l with
  | nil => simp [splitNlChars]
  | cons c cs ih =>
    have hc : c ≠ '\n' := by
      intro he; exact hl (he ▸ List.mem_cons_self c cs)
    have hcs : ('\n' : Char) ∉ cs := fun h => hl (List.mem_cons_of_mem c h)
    simp only [List.cons_append, splitNlChars, List.append_eq]
    rw [ih hcs]
    simp [if_neg hc]

/-- Auxiliary: the saved-file format round-trips — splitting the saved
content at newlines recovers exactly the lines plus one trailing empty
chunk, so each line is followed by exactly one newline, in order. -/
theorem savedContent_roundtrip (ls : List String)
    (h : ∀ l ∈ ls, ('\n' : Char) ∉ l.toList) :
    splitNlChars (savedContent ls).toList = ls.map String.toList ++ [[]] := by
  rw [savedContent_toList]
  induction ls with
  | nil => simp [splitNlChars]
  | cons l ls ih =>
    simp only [List.map_cons, List.flatten_cons, List.append_assoc,
      List.singleton_append]
    rw [splitNlChars_append _ _ (h l (List.mem_cons_self l ls))]
    rw [ih (fun x hx => h x (List.mem_cons_of_mem l hx))]
    simp

/-- C3: after a successful save to `target`, the file at `target` holds
every buffer line followed by exactly one newline in order (and splitting
that content at newlines recovers the lines), the dirty flag is cleared,
`target` becomes the buffer's path and the lines are untouched; a failed
save leaves the buffer (dirty flag and path included) unchanged. -/
theorem save_spec : ∀ (env : SaveEnv) (fs : FS) (buf : Buffer) (target : String),
    (env.writeOk = true → env.renameOk = true →
      (saveCmd env fs (some target) buf).1 target = some (savedContent buf.lines) ∧
      (saveCmd env fs (some target) buf).2.dirty = false ∧
      (saveCmd env fs (some target) buf).2.path = some target ∧
      (saveCmd env fs (some target) buf).2.lines = buf.lines ∧
      ((∀ l ∈ buf.lines, ('\n' : Char) ∉ l.toList) →
        splitNlChars (savedContent buf.lines).toList
          = buf.lines.map String.toList ++ [[]])) ∧
    ((env.writeOk = false ∨ env.renameOk = false) →
      (saveCmd env fs (some target) buf).2 = buf) := by
  intro env fs buf target
  constructor
  · intro hw hr
    have hsc : saveCmd env fs (some target) buf
        = ((fun fs1 => (fsUpdate fs1 target (savedContent buf.lines),
            { buf with path := some target, dirty := false }))
          (match fs target with
            | some old => if buf.backup ∧ env.backupOk then
                fsUpdate fs (env.backupNameOf target) old else fs
            | none => fs)) := by
      unfold saveCmd atomicSave
      rw [hw, hr]
      simp
    rw [hsc]
    refine ⟨?_, rfl, rfl, rfl, savedContent_roundtrip buf.lines⟩
    simp [fsUpdate]
  · intro hfail
    unfold saveCmd atomicSave
    rcases hfail with hw | hr
    · rw [hw]; simp
    · rw [hr]; cases hwv : env.writeOk <;> simp

/-- C3 (witness for `save_spec`). -/
theorem save_spec_witness :
    (saveCmd ⟨true, true, true, fun p => p ++ ".~"⟩ (fun _ => none) (some "t.txt")
        { Buffer.new with lines := ["a", "b"], dirty := true }).1 "t.txt"
      = some (savedContent ["a", "b"]) ∧
    (saveCmd ⟨true, false, true, fun p => p ++ ".~"⟩ (fun _ => none) (some "t.txt")
        { Buffer.new with lines := ["a", "b"], dirty := true }).2
      = { Buffer.new with lines := ["a", "b"], dirty := true } := by
  constructor
  · exact ((save_spec ⟨true, true, true, fun p => p ++ ".~"⟩ (fun _ => none)
      { Buffer.new with lines := ["a", "b"], dirty := true } "t.txt").1 rfl rfl).1
  · exact (save_spec ⟨true, false, true, fun p => p ++ ".~"⟩ (fun _ => none)
      { Buffer.new with lines := ["a", "b"], dirty := true } "t.txt").2 (Or.inl rfl)

-- ===== C5: raw-mode failure ===========================================

/-- C5 (counterexample): the claim says a raw-mode failure degrades to
line-buffered input that still reads the line and feeds History; but with
`enable_raw_mode` failing, `read_line` returns the error immediately — the
pending bytes `h`, CR are never read and History stays empty. -/
theorem raw_mode_fallback_counterexample :
    (read_line emptyCfg (.error ()) [.byte 104, .byte 13] []).res = .error () ∧
    (read_line emptyCfg (.error ()) [.byte 104, .byte 13] []).res ≠ .ok "h" ∧
    (read_line emptyCfg (.error ()) [.byte 104, .byte 13] []).hist = [] := by
  refine ⟨rfl, by simp [read_line], rfl⟩

/-- C5 (amended): on unix, when raw mode cannot be engaged `read_line`
propagates the error (`enable_raw_mode(fd)?`) without reading any input,
restoring anything or touching History; the simple line-buffered variant
exists only as the compile-time non-unix implementation, not as a runtime
fallback. -/
theorem raw_mode_failure_spec :
    ∀ (cfg : RLCfg) (events : List REvent) (hist : List String),
      read_line cfg (.error ()) events hist = ⟨.error (), 0, hist⟩ := by
  intro cfg events hist
  rfl

-- ===== C1: terminal restoration =======================================

/-- C1: on the CR/LF submission path and on the zero-length-read path
(explicit or from an exhausted stream) the saved terminal attributes are
restored exactly once; but a read error in the main loop propagates via `?`
with zero `disable_raw_mode` calls — the restoration is skipped on the
error path, contradicting the claim (and §4.1/§5/§9 of the spec, which
demand restoration on every exit path). -/
theorem read_line_restore_evidence :
    (read_line emptyCfg (.ok ()) [.byte 104, .byte 13] []).restores = 1 ∧
    (read_line emptyCfg (.ok ()) [.byte 10] []).restores = 1 ∧
    (read_line emptyCfg (.ok ()) [.eof] []).restores = 1 ∧
    (read_line emptyCfg (.ok ()) [] []).restores = 1 ∧
    (read_line emptyCfg (.ok ()) [.rerr] []).restores = 0 ∧
    (read_line emptyCfg (.ok ()) [.byte 104, .rerr] []).restores = 0 := by
  refine ⟨rfl, rfl, rfl, rfl, rfl, rfl⟩

-- ===== C7: stack discipline ===========================================

/-- C7: every structural mutation (append, insert, delete, rustfmt
replacement, snippet insert) pushes a snapshot of the pre-mutation lines
onto the undo stack and clears the redo stack; `undo` pops its stack and
pushes the pre-undo lines onto the redo stack (never clearing it), `redo`
is the mirror image. -/
theorem mutation_stack_discipline :
    ∀ (e : Ed) (added nl : List String) (n lo hi : Nat)
      (r : Option (Nat × Nat)) (kind : String),
      ((appendCmd added e).undo = pushSnap e.buf.lines e.undo ∧
        (appendCmd added e).redo = []) ∧
      ((insertCmd n added e).undo = pushSnap e.buf.lines e.undo ∧
        (insertCmd n added e).redo = []) ∧
      ((deleteCmd lo hi e).undo = pushSnap e.buf.lines e.undo ∧
        (deleteCmd lo hi e).redo = []) ∧
      ((rustfmtCmd nl r e).undo = pushSnap e.buf.lines e.undo ∧
        (rustfmtCmd nl r e).redo = []) ∧
      ((snipCmd kind e).undo = pushSnap e.buf.lines e.undo ∧
        (snipCmd kind e).redo = []) ∧
      ((undoCmd e).redo
        = if e.undo = [] then e.redo else pushSnap e.buf.lines e.redo) ∧
      ((undoCmd e).undo = e.undo.tail) ∧
      ((redoCmd e).undo
        = if e.redo = [] then e.undo else pushSnap e.buf.lines e.undo) ∧
      ((redoCmd e).redo = e.redo.tail) := by
  intro e added nl n lo hi r kind
  refine ⟨⟨rfl, rfl⟩, ⟨rfl, rfl⟩, ⟨rfl, rfl⟩, ?_, ?_, ?_, ?_, ?_, ?_⟩
  · rcases r with _ | ⟨a, b⟩ <;> exact ⟨rfl, rfl⟩
  · unfold snipCmd
    rcases snipLines kind with _ | ls <;> exact ⟨rfl, rfl⟩
  · rcases hu : e.undo with _ | ⟨a, rest⟩ <;> simp [undoCmd, hu]
  · rcases hu : e.undo with _ | ⟨a, rest⟩ <;> simp [undoCmd, hu]
  · rcases hr : e.redo with _ | ⟨a, rest⟩ <;> simp [redoCmd, hr]
  · rcases hr : e.redo with _ | ⟨a, rest⟩ <;> simp [redoCmd, hr]

-- ===== C8: history ====================================================

/-- Auxiliary: one `remember` step preserves the capacity bound. -/
theorem remember_length_le (h : List String) (s : String)
    (hl : h.length ≤ HIST_MAX) : (remember h s).length ≤ HIST_MAX := by
  unfold remember
  split
  · exact hl
  · split
    · exact hl
    · split <;> simp [List.length_append, List.length_drop] <;> unfold HIST_MAX at * <;> omega

/-- Auxiliary: any fold of `remember` from a bounded history stays within
the capacity. -/
theorem remember_foldl_le (l : List String) :
    ∀ (h : List String), h.length ≤ HIST_MAX →
      (l.foldl remember h).length ≤ HIST_MAX := by
  induction l with
  | nil => intro h hl; exact hl
  | cons x xs ih =>
    intro h hl
    exact ih (remember h x) (remember_length_le h x hl)

/-- C8: an append to History is skipped exactly when the entry is empty or
equals the immediately preceding stored entry; the length never exceeds 800
for any sequence of appends; and an append at exactly capacity evicts the
oldest entry first. -/
theorem history_spec :
    (∀ (h : List String) (s : String),
      remember h s = h ↔ (s = "" ∨ h.getLast? = some s)) ∧
    (∀ (h : List String) (s : String),
      h.length ≤ HIST_MAX → (remember h s).length ≤ HIST_MAX) ∧
    (∀ (l : List String), (l.foldl remember []).length ≤ HIST_MAX) ∧
    (∀ (h : List String) (s : String), h.length = HIST_MAX → s ≠ "" →
      h.getLast? ≠ some s → remember h s = h.drop 1 ++ [s]) := by
  refine ⟨?_, remember_length_le, fun l => remember_foldl_le l [] (by simp), ?_⟩
  · intro h s
    constructor
    · intro he
      by_contra hc
      push_neg at hc
      obtain ⟨hs, hlast⟩ := hc
      have : (remember h s).getLast? = some s := by
        unfold remember
        rw [if_neg hs, if_neg hlast]
        exact List.getLast?_concat _
      rw [he] at this
      exact hlast this
    · intro hor
      unfold remember
      rcases hor with hs | hlast
      · rw [if_pos hs]
      · rcases eq_or_ne s "" with he | hne
        · rw [if_pos he]
        · rw [if_neg hne, if_pos hlast]
  · intro h s hlen hs hlast
    unfold remember
    rw [if_neg hs, if_neg hlast, if_pos (le_of_eq hlen.symm)]

/-- C8 (witness for `history_spec`). -/
theorem history_spec_witness :
    remember ["a"] "a" = ["a"] ∧
    remember ["a"] "b" ≠ ["a"] ∧
    (List.replicate HIST_MAX "x").length = HIST_MAX ∧
    remember (List.replicate HIST_MAX "x") "y"
      = (List.replicate HIST_MAX "x").drop 1 ++ ["y"] := by
  refine ⟨?_, ?_, ?_, ?_⟩
  · exact (history_spec.1 ["a"] "a").mpr (Or.inr rfl)
  · intro hc
    have := (history_spec.1 ["a"] "b").mp hc
    simp at this
  · simp
  · refine history_spec.2.2.2 _ "y" (by simp) (by simp) ?_
    have h1 : List.replicate HIST_MAX "x" = List.replicate 799 "x" ++ ["x"] := by
      rw [show HIST_MAX = 799 + 1 from rfl, List.replicate_succ']
    rw [h1, List.getLast?_concat]
    simp

-- ===== C10: undo/redo frame ===========================================

/-- C10: a successful undo (resp. redo) changes only the buffer's line
sequence and dirty flag: the buffer's path and its per-buffer flags
(line numbering, backup-on-save, highlighting) are unchanged. -/
theorem undo_redo_frame :
    ∀ (e : Ed),
      (e.undo ≠ [] →
        (undoCmd e).buf.path = e.buf.path ∧
        (undoCmd e).buf.number = e.buf.number ∧
        (undoCmd e).buf.backup = e.buf.backup ∧
        (undoCmd e).buf.highlight = e.buf.highlight) ∧
      (e.redo ≠ [] →
        (redoCmd e).buf.path = e.buf.path ∧
        (redoCmd e).buf.number = e.buf.number ∧
        (redoCmd e).buf.backup = e.buf.backup ∧
        (redoCmd e).buf.highlight = e.buf.highlight) := by
  intro e
  constructor
  · intro _
    rcases hu : e.undo with _ | ⟨a, rest⟩ <;> simp [undoCmd, hu]
  · intro _
    rcases hr : e.redo with _ | ⟨a, rest⟩ <;> simp [redoCmd, hr]

/-- C10 (witness for `undo_redo_frame`). -/
theorem undo_redo_frame_witness :
    ([["x"]] : List (List String)) ≠ [] ∧
    (undoCmd ⟨Buffer.new, [["x"]], [["y"]]⟩).buf.path = Buffer.new.path ∧
    (redoCmd ⟨Buffer.new, [["x"]], [["y"]]⟩).buf.path = Buffer.new.path := by
  refine ⟨by simp, ?_, ?_⟩
  · exact ((undo_redo_frame ⟨Buffer.new, [["x"]], [["y"]]⟩).1 (by simp)).1
  · exact ((undo_redo_frame ⟨Buffer.new, [["x"]], [["y"]]⟩).2 (by simp)).1

-- ===== C6: undo/redo roundtrip ========================================

/-- Auxiliary: a push below capacity is a plain cons. -/
theorem pushSnap_eq_cons (l : List String) (st : List (List String))
    (h : st.length ≠ UNDO_MAX) : pushSnap l st = l :: st := by
  unfold pushSnap
  rw [if_neg h]

/-- Auxiliary: the last element of a reversed list is its first element. -/
theorem getD_reverse_last {α : Type} (xs : List α) (d : α) (n : Nat)
    (h : xs.length = n + 1) : xs.reverse.getD n d = xs.getD 0 d := by
  cases xs with
  | nil => simp at h
  | cons x t =>
    rw [List.reverse_cons]
    have ht : t.reverse.length = n := by
      rw [List.length_reverse]
      simp only [List.length_cons] at h
      omega
    rw [List.getD_append_right _ _ _ _ (le_of_eq ht), ht]
    simp

/-- Auxiliary closed form of `k` undos: with no eviction on the redo stack,
`s = min k |undo|` undos succeed; the lines become the `s`-th entry of the
timeline `lines :: undo`, the first `s` timeline entries move (reversed)
onto the redo stack, and the undo stack loses its first `s` entries. -/
theorem undoN_closed :
    ∀ (k : Nat) (e : Ed), e.undo.length ≤ UNDO_MAX →
      e.redo.length + min k e.undo.length ≤ UNDO_MAX →
      (undoN k e).buf.lines
          = (e.buf.lines :: e.undo).getD (min k e.undo.length) [] ∧
      (undoN k e).undo = e.undo.drop (min k e.undo.length) ∧
      (undoN k e).redo
          = ((e.buf.lines :: e.undo).take (min k e.undo.length)).reverse ++ e.redo := by
  intro k
  induction k with
  | zero =>
    intro e h1 h2
    simp [undoN, iterEd]
  | succ k ih =>
    intro e h1 h2
    obtain ⟨⟨p, L, d, nf, bf, hf⟩, U, R⟩ := e
    cases U with
    | nil =>
      rw [show undoN (k + 1) ⟨⟨p, L, d, nf, bf, hf⟩, [], R⟩
          = undoN k ⟨⟨p, L, d, nf, bf, hf⟩, [], R⟩ from rfl]
      simpa using ih ⟨⟨p, L, d, nf, bf, hf⟩, [], R⟩ h1 (by simpa using h2)
    | cons u rest =>
      simp only [List.length_cons] at h1 h2
      rw [Nat.succ_min_succ] at h2
      have hR200 : R.length ≠ UNDO_MAX := by
        unfold UNDO_MAX at h2 ⊢
        omega
      have hcmd : undoCmd ⟨⟨p, L, d, nf, bf, hf⟩, u :: rest, R⟩
          = ⟨⟨p, u, true, nf, bf, hf⟩, rest, L :: R⟩ := by
        show (⟨⟨p, u, true, nf, bf, hf⟩, rest, pushSnap L R⟩ : Ed) = _
        rw [pushSnap_eq_cons L R hR200]
      rw [show undoN (k + 1) ⟨⟨p, L, d, nf, bf, hf⟩, u :: rest, R⟩
          = undoN k (undoCmd ⟨⟨p, L, d, nf, bf, hf⟩, u :: rest, R⟩) from rfl, hcmd]
      obtain ⟨ihl, ihu, ihr⟩ := ih ⟨⟨p, u, true, nf, bf, hf⟩, rest, L :: R⟩
        (by simp only [List.length_cons]; omega)
        (by simp only [List.length_cons]; omega)
      refine ⟨?_, ?_, ?_⟩
      · rw [ihl]
        simp only [List.length_cons, Nat.succ_min_succ, List.getD_cons_succ]
      · rw [ihu]
        simp only [List.length_cons, Nat.succ_min_succ, List.drop_succ_cons]
      · rw [ihr]
        simp only [List.length_cons, Nat.succ_min_succ, List.take_succ_cons,
          List.reverse_cons, List.append_assoc, List.singleton_append]

/-- Auxiliary closed form of `k` redos, the mirror of `undoN_closed`. -/
theorem redoN_closed :
    ∀ (k : Nat) (e : Ed), e.redo.length ≤ UNDO_MAX →
      e.undo.length + min k e.redo.length ≤ UNDO_MAX →
      (redoN k e).buf.lines
          = (e.buf.lines :: e.redo).getD (min k e.redo.length) [] ∧
      (redoN k e).redo = e.redo.drop (min k e.redo.length) ∧
      (redoN k e).undo
          = ((e.buf.lines :: e.redo).take (min k e.redo.length)).reverse ++ e.undo := by
  intro k
  induction k with
  | zero =>
    intro e h1 h2
    simp [redoN, iterEd]
  | succ k ih =>
    intro e h1 h2
    obtain ⟨⟨p, L, d, nf, bf, hf⟩, U, R⟩ := e
    cases R with
    | nil =>
      rw [show redoN (k + 1) ⟨⟨p, L, d, nf, bf, hf⟩, U, []⟩
          = redoN k ⟨⟨p, L, d, nf, bf, hf⟩, U, []⟩ from rfl]
      simpa using ih ⟨⟨p, L, d, nf, bf, hf⟩, U, []⟩ h1 (by simpa using h2)
    | cons u rest =>
      simp only [List.length_cons] at h1 h2
      rw [Nat.succ_min_succ] at h2
      have hU200 : U.length ≠ UNDO_MAX := by
        unfold UNDO_MAX at h2 ⊢
        omega
      have hcmd : redoCmd ⟨⟨p, L, d, nf, bf, hf⟩, U, u :: rest⟩
          = ⟨⟨p, u, true, nf, bf, hf⟩, L :: U, rest⟩ := by
        show (⟨⟨p, u, true, nf, bf, hf⟩, pushSnap L U, rest⟩ : Ed) = _
        rw [pushSnap_eq_cons L U hU200]
      rw [show redoN (k + 1) ⟨⟨p, L, d, nf, bf, hf⟩, U, u :: rest⟩
          = redoN k (redoCmd ⟨⟨p, L, d, nf, bf, hf⟩, U, u :: rest⟩) from rfl, hcmd]
      obtain ⟨ihl, ihr, ihu⟩ := ih ⟨⟨p, u, true, nf, bf, hf⟩, L :: U, rest⟩
        (by simp only [List.length_cons]; omega)
        (by simp only [List.length_cons]; omega)
      refine ⟨?_, ?_, ?_⟩
      · rw [ihl]
        simp only [List.length_cons, Nat.succ_min_succ, List.getD_cons_succ]
      · rw [ihr]
        simp only [List.length_cons, Nat.succ_min_succ, List.drop_succ_cons]
      · rw [ihu]
        simp only [List.length_cons, Nat.succ_min_succ, List.take_succ_cons,
          List.reverse_cons, List.append_assoc, List.singleton_append]

/-- Auxiliary: starting from an empty redo stack and a bounded undo stack,
`k` undos followed by `k` redos restore the line sequence. -/
theorem roundtrip_lines (k : Nat) (e : Ed) (hU : e.undo.length ≤ UNDO_MAX)
    (hR : e.redo = []) :
    (redoN k (undoN k e)).buf.lines = e.buf.lines := by
  have hsu : min k e.undo.length ≤ e.undo.length := Nat.min_le_right _ _
  have hsk : min k e.undo.length ≤ k := Nat.min_le_left _ _
  have h2 : e.redo.length + min k e.undo.length ≤ UNDO_MAX := by
    rw [hR]
    simpa using le_trans hsu hU
  obtain ⟨e1l, e1u, e1r⟩ := undoN_closed k e hU h2
  rw [hR, List.append_nil] at e1r
  have hlenT : (List.take (min k e.undo.length) (e.buf.lines :: e.undo)).length
      = min k e.undo.length := by
    rw [List.length_take]
    apply Nat.min_eq_left
    simp only [List.length_cons]
    omega
  have hredoLen : (undoN k e).redo.length = min k e.undo.length := by
    rw [e1r, List.length_reverse, hlenT]
  have hA : (undoN k e).redo.length ≤ UNDO_MAX := by
    rw [hredoLen]
    exact le_trans hsu hU
  have hB : (undoN k e).undo.length + min k (undoN k e).redo.length ≤ UNDO_MAX := by
    rw [e1u, hredoLen, List.length_drop, Nat.min_eq_right hsk]
    omega
  obtain ⟨rl, _, _⟩ := redoN_closed k (undoN k e) hA hB
  rw [rl, e1l, e1r, List.length_reverse, hlenT, Nat.min_eq_right hsk]
  rcases hs0 : min k e.undo.length with _ | s
  · simp
  · rw [List.getD_cons_succ]
    have hlt : (List.take (s + 1) (e.buf.lines :: e.undo)).length = s + 1 := by
      rw [List.length_take]
      apply Nat.min_eq_left
      simp only [List.length_cons]
      omega
    rw [getD_reverse_last _ [] s hlt, List.take_succ_cons, List.getD_cons_zero]

/-- Auxiliary: one mutation command keeps the undo stack within capacity
and leaves the redo stack cleared. -/
theorem applyMut_stack_bounds (m : Mut) (e : Ed)
    (h : e.undo.length ≤ UNDO_MAX) :
    (applyMut m e).undo.length ≤ UNDO_MAX ∧ (applyMut m e).redo = [] := by
  have hlen : (pushSnap e.buf.lines e.undo).length ≤ UNDO_MAX := by
    unfold pushSnap
    split
    · simp only [List.length_cons, List.length_dropLast]
      unfold UNDO_MAX at *
      omega
    · simp only [List.length_cons]
      unfold UNDO_MAX at *
      omega
  rcases m with added | ⟨n, added⟩ | ⟨lo, hi⟩ | ⟨nl, r⟩ | kind
  · exact ⟨hlen, rfl⟩
  · exact ⟨hlen, rfl⟩
  · exact ⟨hlen, rfl⟩
  · rcases r with _ | ⟨a, b⟩ <;> exact ⟨hlen, rfl⟩
  · rcases hsl : snipLines kind with _ | ls <;>
      simp only [applyMut, snipCmd, hsl] <;> exact ⟨hlen, rfl⟩

/-- Auxiliary: any sequence of mutations from a state with empty redo stack
keeps the undo stack bounded and the redo stack empty. -/
theorem applyMuts_stack_bounds (ms : List Mut) :
    ∀ (e : Ed), e.undo.length ≤ UNDO_MAX → e.redo = [] →
      (applyMuts ms e).undo.length ≤ UNDO_MAX ∧ (applyMuts ms e).redo = [] := by
  induction ms with
  | nil => intro e h1 h2; exact ⟨h1, h2⟩
  | cons m ms ih =>
    intro e h1 h2
    have step := applyMut_stack_bounds m e h1
    exact ih (applyMut m e) step.1 step.2

/-- C6: for any buffer, any sequence of structural buffer mutations and any
`k`, performing `k` undos immediately followed by `k` redos (no intervening
mutation) restores the line sequence that was present immediately before
the undos. -/
theorem undo_redo_roundtrip :
    ∀ (b : Buffer) (ms : List Mut) (k : Nat),
      (redoN k (undoN k (applyMuts ms (mkEd b)))).buf.lines
        = (applyMuts ms (mkEd b)).buf.lines := by
  intro b ms k
  have hb := applyMuts_stack_bounds ms (mkEd b) (Nat.zero_le _) rfl
  exact roundtrip_lines k _ hb.1 hb.2

-- ===== C9: completion =================================================

/-- Auxiliary: the candidate order is total. -/
theorem lexLe_total : ∀ (xs ys : List Char),
    lexLe xs ys = true ∨ lexLe ys xs = true := by
  intro xs
  induction xs with
  | nil => intro ys; left; rfl
  | cons x xs ih =>
    intro ys
    cases ys with
    | nil => right; rfl
    | cons y ys =>
      by_cases h1 : x.toNat < y.toNat
      · left; simp [lexLe, h1]
      · by_cases h2 : y.toNat < x.toNat
        · right; simp [lexLe, h2]
        · rcases ih ys with h | h
          · left; simp [lexLe, h1, h2, h]
          · right; simp [lexLe, h1, h2, h]

/-- Auxiliary: the candidate order is transitive. -/
theorem lexLe_trans : ∀ (xs ys zs : List Char), lexLe xs ys = true →
    lexLe ys zs = true → lexLe xs zs = true := by
  intro xs
  induction xs with
  | nil => intro ys zs _ _; rfl
  | cons x xs ih =>
    intro ys zs h1 h2
    cases ys with
    | nil => exact absurd h1 (by simp [lexLe])
    | cons y ys =>
      cases zs with
      | nil => exact absurd h2 (by simp [lexLe])
      | cons z zs =>
        simp only [lexLe] at h1 h2 ⊢
        by_cases a1 : x.toNat < y.toNat
        · by_cases a2 : y.toNat < z.toNat
          · have hlt : x.toNat < z.toNat := by omega
            simp [hlt]
          · by_cases a3 : z.toNat < y.toNat
            · simp [a2, a3] at h2
            · have hlt : x.toNat < z.toNat := by omega
              simp [hlt]
        · by_cases a4 : y.toNat < x.toNat
          · simp [a1, a4] at h1
          · simp only [if_neg a1, if_neg a4] at h1
            by_cases a2 : y.toNat < z.toNat
            · have hlt : x.toNat < z.toNat := by omega
              simp [hlt]
            · by_cases a3 : z.toNat < y.toNat
              · simp [a2, a3] at h2
              · simp only [if_neg a2, if_neg a3] at h2
                have hxz : ¬ x.toNat < z.toNat := by omega
                have hzx : ¬ z.toNat < x.toNat := by omega
                simp only [if_neg hxz, if_neg hzx]
                exact ih ys zs h1 h2

instance : IsTotal String strLe := ⟨fun a b => lexLe_total a.toList b.toList⟩

instance : IsTrans String strLe :=
  ⟨fun _ _ _ h1 h2 => lexLe_trans _ _ _ h1 h2⟩

/-- Auxiliary: when a dirs-only candidate is produced. -/
theorem dirOnlyCand_eq_some (dir base name : String) (md : Option Bool)
    (x : String) :
    dirOnlyCand dir base (name, md) = some x ↔
      md = some true ∧ strStarts name base = true ∧
        x = (if dir = "." then name ++ "/" else dir ++ "/" ++ name) := by
  rcases md with _ | b
  · simp [dirOnlyCand]
  · cases b
    · simp [dirOnlyCand]
    · unfold dirOnlyCand
      by_cases hss : strStarts name base = true
      · simp [hss, eq_comm]
      · simp [hss]

/-- Auxiliary: when a files-and-directories candidate is produced. -/
theorem fsCand_eq_some (dir base name : String) (md : Option Bool)
    (x : String) :
    fsCand dir base (name, md) = some x ↔
      strStarts name base = true ∧
        x = (if md = some true
          then (if dir = "." then name else dir ++ "/" ++ name) ++ "/"
          else (if dir = "." then name else dir ++ "/" ++ name)) := by
  unfold fsCand
  by_cases hss : strStarts name base = true
  · rcases md with _ | b
    · simp [hss, eq_comm]
    · cases b
      · simp [hss, eq_comm]
      · simp [hss, eq_comm]
  · simp [hss]

/-- Auxiliary: membership in the dirs-only candidate set. -/
theorem mem_complete_dirs_only (fs : Listing) (home tok x : String) :
    x ∈ complete_dirs_only fs home tok ↔
      ∃ name md, (name, md) ∈ fs (splitTok (expand_home home tok)).1 ∧
        md = some true ∧
        strStarts name (splitTok (expand_home home tok)).2 = true ∧
        x = (if (splitTok (expand_home home tok)).1 = "." then name ++ "/"
             else (splitTok (expand_home home tok)).1 ++ "/" ++ name) := by
  simp only [complete_dirs_only, sortStr]
  rw [List.Perm.mem_iff (List.perm_insertionSort _ _), List.mem_filterMap]
  constructor
  · rintro ⟨⟨name, md⟩, hmem, hF⟩
    rw [dirOnlyCand_eq_some] at hF
    exact ⟨name, md, hmem, hF.1, hF.2.1, hF.2.2⟩
  · rintro ⟨name, md, hmem, h1, h2, h3⟩
    exact ⟨(name, md), hmem, (dirOnlyCand_eq_some _ _ _ _ _).mpr ⟨h1, h2, h3⟩⟩

/-- Auxiliary: membership in the files-and-directories candidate set. -/
theorem mem_complete_fs (fs : Listing) (home tok x : String) :
    x ∈ complete_fs fs home tok ↔
      ∃ name md, (name, md) ∈ fs (splitTok (expand_home home tok)).1 ∧
        strStarts name (splitTok (expand_home home tok)).2 = true ∧
        x = (if md = some true
          then (if (splitTok (expand_home home tok)).1 = "." then name
            else (splitTok (expand_home home tok)).1 ++ "/" ++ name) ++ "/"
          else (if (splitTok (expand_home home tok)).1 = "." then name
            else (splitTok (expand_home home tok)).1 ++ "/" ++ name)) := by
  simp only [complete_fs, sortStr]
  rw [List.Perm.mem_iff (List.perm_insertionSort _ _), List.mem_filterMap]
  constructor
  · rintro ⟨⟨name, md⟩, hmem, hF⟩
    rw [fsCand_eq_some] at hF
    exact ⟨name, md, hmem, hF.1, hF.2⟩
  · rintro ⟨name, md, hmem, h1, h2⟩
    exact ⟨(name, md), hmem, (fsCand_eq_some _ _ _ _ _).mpr ⟨h1, h2⟩⟩

/-- C9 (counterexample): the claim says every directory result carries a
trailing path separator; but completing the second token `src/fo` of a `cd`
command against a `src` directory containing the directory `foobar` yields
the single candidate `src/foobar` without the separator —
`complete_dirs_only` appends `/` only in its `dir == "."` branch. -/
theorem completion_slash_counterexample :
    fsSrc "src" = [("foobar", some true)] ∧
    complete cmdsFixture fsSrc "" "cd src/fo" = ["src/foobar"] ∧
    "src/foobar".toList.getLast? ≠ some '/' := by
  refine ⟨rfl, by decide, by decide⟩

/-- C9 (amended): completing a non-first token routes `cd` to the
directories-only candidate set and any other first word to the
files-and-directories set; both sets are lexicographically sorted; a
files-and-directories candidate carries a trailing separator exactly for
directory entries, while a directories-only candidate is built from
directory entries only and carries the separator exactly in the
current-directory (`dir == "."`) case; the two concrete examples hold. -/
theorem completion_spec :
    complete cmdsFixture fsAbc "" "open fo" = ["foo.txt", "foobar/"] ∧
    complete cmdsFixture fsAbc "" "cd fo" = ["foobar/"] ∧
    (∀ (fs : Listing) (home tok : String),
      List.Sorted strLe (complete_dirs_only fs home tok)) ∧
    (∀ (fs : Listing) (home tok : String),
      List.Sorted strLe (complete_fs fs home tok)) ∧
    (∀ (fs : Listing) (home tok x : String),
      x ∈ complete_dirs_only fs home tok ↔
        ∃ name md, (name, md) ∈ fs (splitTok (expand_home home tok)).1 ∧
          md = some true ∧
          strStarts name (splitTok (expand_home home tok)).2 = true ∧
          x = (if (splitTok (expand_home home tok)).1 = "." then name ++ "/"
               else (splitTok (expand_home home tok)).1 ++ "/" ++ name)) ∧
    (∀ (fs : Listing) (home tok x : String),
      x ∈ complete_fs fs home tok ↔
        ∃ name md, (name, md) ∈ fs (splitTok (expand_home home tok)).1 ∧
          strStarts name (splitTok (expand_home home tok)).2 = true ∧
          x = (if md = some true
            then (if (splitTok (expand_home home tok)).1 = "." then name
              else (splitTok (expand_home home tok)).1 ++ "/" ++ name) ++ "/"
            else (if (splitTok (expand_home home tok)).1 = "." then name
              else (splitTok (expand_home home tok)).1 ++ "/" ++ name))) ∧
    (∀ (cmds : List String) (fs : Listing) (home buf t : String)
        (ts : List String), split_words buf = t :: ts → ts ≠ [] →
        endsInWs buf = false →
        complete cmds fs home buf
          = (if t = "cd" then complete_dirs_only fs home ((t :: ts).getLastD "")
             else complete_fs fs home ((t :: ts).getLastD ""))) := by
  refine ⟨by decide, by decide, ?_, ?_, mem_complete_dirs_only, mem_complete_fs, ?_⟩
  · intro fs home tok
    exact List.sorted_insertionSort strLe _
  · intro fs home tok
    exact List.sorted_insertionSort strLe _
  · intro cmds fs home buf t ts hsplit hts hws
    unfold complete
    rw [hsplit, hws]
    simp only [Bool.and_false, if_neg (by simp [hts] : ¬ (ts = [] ∧ false = false))]
    simp [hts]

/-- C9 (witness for `completion_spec`). -/
theorem completion_spec_witness :
    List.Sorted strLe (complete_dirs_only fsAbc "" "fo") ∧
    ("foobar/" ∈ complete_dirs_only fsAbc "" "fo" ↔
      ∃ name md, (name, md) ∈ fsAbc (splitTok (expand_home "" "fo")).1 ∧
        md = some true ∧
        strStarts name (splitTok (expand_home "" "fo")).2 = true ∧
        "foobar/" = (if (splitTok (expand_home "" "fo")).1 = "."
          then name ++ "/"
          else (splitTok (expand_home "" "fo")).1 ++ "/" ++ name)) ∧
    complete cmdsFixture fsAbc "" "cd fo"
      = (if "cd" = "cd"
         then complete_dirs_only fsAbc "" (["cd", "fo"].getLastD "")
         else complete_fs fsAbc "" (["cd", "fo"].getLastD "")) := by
  refine ⟨?_, ?_, ?_⟩
  · exact completion_spec.2.2.1 fsAbc "" "fo"
  · exact completion_spec.2.2.2.2.1 fsAbc "" "fo" "foobar/"
  · exact completion_spec.2.2.2.2.2.2 cmdsFixture fsAbc "" "cd fo" "cd" ["fo"]
      (by decide) (by decide) (by decide)

end Trust
